import Mathlib

/-!
# Verification of the Pinia task store (`useTaskStore`)

Shallow embedding of the task state store of the Vue/Pinia to-do application
(source: the store module defining `useTaskStore`, and its caller `App.vue`).

Modelling conventions:

* JS numbers holding task ids are modelled as `Int` (all ids in reachable
  states are small positive integers, far from any float-precision issue).
* JS strings are modelled as Lean `String`; `String.prototype.trim`,
  `String.prototype.toLowerCase` and `String.prototype.includes` are given
  explicit models (`jsTrim`, `jsToLower`, `charsContains`) over the
  underlying character lists.
* The `localStorage` slot `'tasks'` is modelled by `StoredContent`: every
  possible slot state is either absent (`getItem` returns `null`, falsy),
  the empty string (the one falsy string, also rejected by `JSON.parse`),
  a non-empty string rejected by `JSON.parse` (which throws a
  `SyntaxError`), or a (necessarily non-empty) string that parses to a
  unique JSON value, represented by the `Json` inductive.
* Vue's deep watcher on `tasks` (the persistence trigger) fires exactly when
  the ref is reassigned or some reactive field of a task is set to a
  different value; each mutation's firing condition is modelled by a
  dedicated `...Writes` function.
* `Array.prototype.sort` is stable (required since ES2019), and both
  comparators used by the store are consistent (they are induced by the
  boolean `completed` key), so the result of the sort is the unique stable
  order; it is realized here by a stable insertion sort `jsSort`.
-/

namespace TaskStore

/-- The `Task` interface of the store module: `id : number`,
`description : string`, `completed : boolean`. -/
structure Task where
  id : Int
  description : String
  completed : Bool
deriving DecidableEq, Repr

/-- JSON values, as produced by `JSON.parse` on a successfully parsed
string.  Integer numerals suffice for the values this application stores. -/
inductive Json where
  | null : Json
  | bool (b : Bool) : Json
  | num (n : Int) : Json
  | str (s : String) : Json
  | arr (items : List Json) : Json
  | obj (fields : List (String × Json)) : Json

/-- The state of the `localStorage` slot keyed `'tasks'`.  A concrete slot
either holds no value (`getItem` returns `null`), holds the empty string
(the only falsy string, and a string `JSON.parse` rejects), holds a
non-empty string `JSON.parse` rejects, or holds a string parsing to a
unique JSON value (every such string is non-empty, hence truthy). -/
inductive StoredContent where
  | missing : StoredContent
  | emptyString : StoredContent
  | malformed : StoredContent
  | json (j : Json) : StoredContent

/-- Store initialization (line 23 of the store module):
`JSON.parse(localStorage.getItem('tasks') || '[]')`.
The `||` fallback fires on any falsy `getItem` result — both a missing
slot (`null`) and a slot holding the empty string — substituting the
literal `'[]'`, which parses to the empty array.  A non-empty slot that
`JSON.parse` rejects makes it throw (modelled by `Except.error`); any
other slot yields its parsed JSON value, used directly (uncheckedly) as
the `tasks` array. -/
def load (s : StoredContent) : Except Unit Json :=
  match s with
  | .missing => .ok (Json.arr [])
  | .emptyString => .ok (Json.arr [])
  | .malformed => .error ()
  | .json j => .ok j

/-- `JSON.stringify` of one task object: an object with the keys
`id`, `description`, `completed` in declaration order. -/
def encodeTask (t : Task) : Json :=
  Json.obj [("id", Json.num t.id), ("description", Json.str t.description),
            ("completed", Json.bool t.completed)]

/-- `JSON.stringify` of a task array, at the JSON-value level. -/
def encodeTasks (ts : List Task) : Json :=
  Json.arr (ts.map encodeTask)

/-- Reading one parsed JSON object back as a `Task` (the untyped cast the
store performs on the result of `JSON.parse`): defined exactly when the
object has the shape `JSON.stringify` produces for a task. -/
def decodeTask (j : Json) : Option Task :=
  match j with
  | Json.obj [("id", Json.num i), ("description", Json.str d),
              ("completed", Json.bool c)] => some ⟨i, d, c⟩
  | _ => none

/-- Reading a list of parsed JSON values back as tasks; `none` as soon as
one element does not have the task shape. -/
def decodeTaskList (js : List Json) : Option (List Task) :=
  match js with
  | [] => some []
  | j :: rest =>
    match decodeTask j, decodeTaskList rest with
    | some t, some ts => some (t :: ts)
    | _, _ => none

/-- Reading a parsed JSON value back as a task array. -/
def decodeTasks (j : Json) : Option (List Task) :=
  match j with
  | Json.arr js => decodeTaskList js
  | _ => none

/-- The persistence watcher (lines 32-36):
`localStorage.setItem('tasks', JSON.stringify(newTasks))`.
`JSON.stringify` of a task array produces a well-formed string that
`JSON.parse` maps back to the same JSON value, so at the
`StoredContent` level `save` stores the encoded value. -/
def save (ts : List Task) : StoredContent :=
  StoredContent.json (encodeTasks ts)

/-! ## JS string primitives used by the store -/

/-- The whitespace class used by `String.prototype.trim` (restricted to the
characters this application can contain; the full JS class also has exotic
Unicode spaces, irrelevant here). -/
def isJsWhitespace (c : Char) : Bool :=
  c = ' ' || c = '\t' || c = '\n' || c = '\r' || c = '\x0b' || c = '\x0c'

/-- Trimming a character list: drop leading whitespace, then trailing
whitespace. -/
def trimChars (l : List Char) : List Char :=
  ((l.dropWhile isJsWhitespace).reverse.dropWhile isJsWhitespace).reverse

/-- `String.prototype.trim`. -/
def jsTrim (s : String) : String :=
  ⟨trimChars s.data⟩

/-- `String.prototype.toLowerCase`, character by character. -/
def jsToLower (s : String) : String :=
  ⟨s.data.map Char.toLower⟩

/-- Is `needle` a prefix of `hay`? -/
def charsPrefixOf : List Char → List Char → Bool
  | [], _ => true
  | _ :: _, [] => false
  | c :: cs, d :: ds => c = d && charsPrefixOf cs ds

/-- `String.prototype.includes`: does `hay` contain `needle` as a
contiguous substring? -/
def charsContains (needle : List Char) : List Char → Bool
  | [] => charsPrefixOf needle []
  | c :: rest => charsPrefixOf needle (c :: rest) || charsContains needle rest

/-! ## The store state and its mutations -/

/-- The state owned by the store: the task collection and the two
view-control refs (lines 23-28). -/
structure StoreState where
  tasks : List Task
  searchTerm : String
  sortCriteria : String
deriving DecidableEq, Repr

/-- The store's initial state: tasks as loaded (empty here, the generic
load path is `load` above), `searchTerm = ''`,
`sortCriteria = 'default'`. -/
def initialStore : StoreState :=
  { tasks := [], searchTerm := "", sortCriteria := "default" }

/-- The id computed by `addTask` (line 86):
`tasks.length > 0 ? Math.max(...tasks.map(task => task.id)) + 1 : 1`. -/
def nextId (ts : List Task) : Int :=
  match ts with
  | [] => 1
  | t :: rest => rest.foldl (fun m u => max m u.id) t.id + 1

/-- `addTask` (lines 84-91): push a new task with the computed id, the
given description verbatim, and `completed: false`. -/
def addTask (description : String) (ts : List Task) : List Task :=
  ts ++ [{ id := nextId ts, description := description, completed := false }]

/-- `removeTask` (lines 98-100):
`tasks.value = tasks.value.filter(task => task.id !== id)`. -/
def removeTask (id : Int) (ts : List Task) : List Task :=
  ts.filter (fun task => task.id != id)

/-- `toggleTaskCompletion` (lines 107-112): `find` the first task with the
given id and flip its `completed` in place; nothing if absent. -/
def toggleTaskCompletion (id : Int) : List Task → List Task
  | [] => []
  | t :: ts =>
    if t.id = id then { t with completed := !t.completed } :: ts
    else t :: toggleTaskCompletion id ts

/-- `updateTaskDescription` (lines 120-125): `find` the first task with the
given id and set its description to `newDescription.trim()`; nothing if
absent. -/
def updateTaskDescription (id : Int) (newDescription : String) :
    List Task → List Task
  | [] => []
  | t :: ts =>
    if t.id = id then { t with description := jsTrim newDescription } :: ts
    else t :: updateTaskDescription id newDescription ts

/-- `toggleAllTasksCompletion` (lines 151-156):
`tasks.value = tasks.value.map(task => ({ ...task, completed: completedStatus }))`. -/
def toggleAllTasksCompletion (completedStatus : Bool) (ts : List Task) :
    List Task :=
  ts.map (fun task => { task with completed := completedStatus })

/-- `clearCompletedTasks` (lines 162-164):
`tasks.value = tasks.value.filter(task => !task.completed)`. -/
def clearCompletedTasks (ts : List Task) : List Task :=
  ts.filter (fun task => !task.completed)

/-! ## Persistence-trigger model

The deep watcher on `tasks` fires (and then overwrites the storage slot)
exactly when the mutation reassigned `tasks.value` or set a reactive field
of some task to a different value (Vue 3 skips the trigger when a property
is set to an identical value). -/

/-- `removeTask` always assigns `tasks.value` a fresh array returned by
`filter`, so the watcher always fires. -/
def removeTaskWrites (_ts : List Task) (_id : Int) : Bool :=
  true

/-- `toggleTaskCompletion` writes only if `find` located a task; the
flipped boolean always differs from the old value. -/
def toggleTaskCompletionWrites (ts : List Task) (id : Int) : Bool :=
  (ts.find? (fun task => task.id == id)).isSome

/-- `updateTaskDescription` writes only if `find` located a task and the
trimmed new description differs from the stored one. -/
def updateTaskDescriptionWrites (ts : List Task) (id : Int)
    (newDescription : String) : Bool :=
  match ts.find? (fun task => task.id == id) with
  | some t => t.description != jsTrim newDescription
  | none => false

/-! ## Derived views -/

/-- The search predicate of `allTasks` (lines 44-49):
`task.description.toLowerCase().includes(searchTerm.toLowerCase())`. -/
def matchesSearch (term : String) (t : Task) : Bool :=
  charsContains (jsToLower term).data (jsToLower t.description).data

/-- The comparator of the `completedFirst` branch (lines 54-58). -/
def cmpCompletedFirst (a b : Task) : Int :=
  if a.completed && !b.completed then -1
  else if !a.completed && b.completed then 1
  else 0

/-- The comparator of the `pendingFirst` branch (lines 60-64). -/
def cmpPendingFirst (a b : Task) : Int :=
  if !a.completed && b.completed then -1
  else if a.completed && !b.completed then 1
  else 0

/-- Stable insertion step: the element being inserted is earlier (in the
original order) than everything in the already-sorted tail, so it is
placed before the first element it does not strictly follow. -/
def sortInsert (cmp : Task → Task → Int) (x : Task) : List Task → List Task
  | [] => [x]
  | y :: ys => if cmp x y ≤ 0 then x :: y :: ys else y :: sortInsert cmp x ys

/-- `[...filtered].sort(cmp)` for a consistent comparator: the unique
stable order, realized by stable insertion sort. -/
def jsSort (cmp : Task → Task → Int) : List Task → List Task
  | [] => []
  | x :: xs => sortInsert cmp x (jsSort cmp xs)

/-- The `filtered` intermediate of the `allTasks` getter (lines 41-49):
start from the full collection and apply the search filter only when
`searchTerm` is truthy (non-empty). -/
def filteredTasks (s : StoreState) : List Task :=
  if s.searchTerm ≠ "" then s.tasks.filter (matchesSearch s.searchTerm)
  else s.tasks

/-- The `allTasks` computed getter (lines 40-68): filter by the search term
when it is truthy (non-empty), then sort according to `sortCriteria`,
returning the filtered array unchanged for `default` or any other value. -/
def allTasks (s : StoreState) : List Task :=
  if s.sortCriteria = "completedFirst" then
    jsSort cmpCompletedFirst (filteredTasks s)
  else if s.sortCriteria = "pendingFirst" then
    jsSort cmpPendingFirst (filteredTasks s)
  else filteredTasks s

/-- The `completedTasks` computed getter (line 72):
`allTasks.value.filter(task => task.completed)`. -/
def completedTasks (s : StoreState) : List Task :=
  (allTasks s).filter (fun task => task.completed)

/-- The `pendingTasks` computed getter (line 73):
`allTasks.value.filter(task => !task.completed)`. -/
def pendingTasks (s : StoreState) : List Task :=
  (allTasks s).filter (fun task => !task.completed)

/-- Reference pipeline following the spec's words, first stage: keep
exactly the tasks whose description contains the search term as a
case-insensitive substring; an empty search term keeps everything. -/
def specFilteredTasks (s : StoreState) : List Task :=
  if s.searchTerm = "" then s.tasks
  else s.tasks.filter (matchesSearch s.searchTerm)

/-- Reference pipeline following the spec's words, second stage: stably
reorder the filtered sequence — `completedFirst` puts all completed tasks
before all pending ones preserving relative order within each group,
`pendingFirst` the reverse, anything else leaves the filtered sequence
unchanged.  A stable partition by a boolean key is exactly the
concatenation of the two filtered groups. -/
def specAllTasks (s : StoreState) : List Task :=
  if s.sortCriteria = "completedFirst" then
    (specFilteredTasks s).filter (fun t => t.completed) ++
      (specFilteredTasks s).filter (fun t => !t.completed)
  else if s.sortCriteria = "pendingFirst" then
    (specFilteredTasks s).filter (fun t => !t.completed) ++
      (specFilteredTasks s).filter (fun t => t.completed)
  else specFilteredTasks s

/-! ## The public mutation operations as a step type -/

/-- One invocation of a public mutation operation of the store, with its
arguments. -/
inductive Op where
  | add (description : String)
  | remove (id : Int)
  | toggle (id : Int)
  | update (id : Int) (description : String)
  | toggleAll (flag : Bool)
  | clearCompleted
  | setSearch (term : String)
  | setSort (criteria : String)

/-- Executing one mutation operation on the store state. -/
def applyOp (op : Op) (s : StoreState) : StoreState :=
  match op with
  | .add d => { s with tasks := addTask d s.tasks }
  | .remove id => { s with tasks := removeTask id s.tasks }
  | .toggle id => { s with tasks := toggleTaskCompletion id s.tasks }
  | .update id d => { s with tasks := updateTaskDescription id d s.tasks }
  | .toggleAll f => { s with tasks := toggleAllTasksCompletion f s.tasks }
  | .clearCompleted => { s with tasks := clearCompletedTasks s.tasks }
  | .setSearch t => { s with searchTerm := t }
  | .setSort c => { s with sortCriteria := c }

/-- Executing a sequence of mutation operations, first element first. -/
def applyOps (ops : List Op) (s : StoreState) : StoreState :=
  ops.foldl (fun st op => applyOp op st) s

/-- The validation `App.vue` performs before invoking a text-taking
mutation: `handleAddTask` requires `newTaskDescription.value.trim() !== ''`
and `saveEdit` requires `editingTaskDescription.value.trim() !== ''`; the
other operations take no text. -/
def validOp (op : Op) : Bool :=
  match op with
  | .add d => jsTrim d != ""
  | .update _ d => jsTrim d != ""
  | _ => true

/-- A description counts as empty-or-whitespace-only when every character
(vacuously all of them, for the empty string) is whitespace. -/
def wsOnly (s : String) : Bool :=
  s.data.all isJsWhitespace

end TaskStore

namespace TaskStore

/-! ## Helper lemmas: trimming and whitespace -/

theorem dropWhile_head_not (p : Char → Bool) :
    ∀ (l : List Char) (c : Char) (rest : List Char),
      l.dropWhile p = c :: rest → p c = false := by
  intro l
  induction l with
  | nil => intro c rest h; simp [List.dropWhile] at h
  | cons a l ih =>
    intro c rest h
    by_cases ha : p a = true
    · rw [List.dropWhile_cons_of_pos ha] at h
      exact ih c rest h
    · rw [List.dropWhile_cons_of_neg ha] at h
      cases h
      exact Bool.not_eq_true _ |>.mp ha

theorem dropWhile_all_iff (p : Char → Bool) (l : List Char) :
    (∀ x ∈ l.dropWhile p, p x = true) ↔ ∀ x ∈ l, p x = true := by
  constructor
  · intro h x hx
    have hx2 : x ∈ l.takeWhile p ++ l.dropWhile p := by
      rw [List.takeWhile_append_dropWhile]
      exact hx
    rcases List.mem_append.1 hx2 with hx1 | hx1
    · exact List.mem_takeWhile_imp hx1
    · exact h x hx1
  · intro h x hx
    exact h x (List.Sublist.mem hx (List.dropWhile_sublist _))

theorem trimChars_eq_nil_iff (l : List Char) :
    trimChars l = [] ↔ l.all isJsWhitespace = true := by
  unfold trimChars
  rw [List.reverse_eq_nil_iff, List.dropWhile_eq_nil_iff, List.all_eq_true]
  constructor
  · intro h
    rw [← dropWhile_all_iff isJsWhitespace l]
    intro x hx
    exact h x (List.mem_reverse.2 hx)
  · intro h x hx
    exact h x (List.Sublist.mem (List.mem_reverse.1 hx) (List.dropWhile_sublist _))

theorem trimChars_not_all_ws (l : List Char) (h : trimChars l ≠ []) :
    (trimChars l).all isJsWhitespace = false := by
  rcases hy : (l.dropWhile isJsWhitespace).reverse.dropWhile isJsWhitespace with _ | ⟨c, rest⟩
  · exfalso; apply h; unfold trimChars; rw [hy]; rfl
  · have hc : isJsWhitespace c = false := dropWhile_head_not isJsWhitespace _ c rest hy
    unfold trimChars
    rw [hy]
    by_contra hall
    have hall2 : ∀ x ∈ (c :: rest).reverse, isJsWhitespace x = true :=
      List.all_eq_true.1 (Bool.not_eq_false _ |>.mp hall)
    have := hall2 c (List.mem_reverse.2 (List.mem_cons_self c rest))
    rw [hc] at this
    exact Bool.false_ne_true this

theorem wsOnly_of_trim_ne (d : String) (h : jsTrim d ≠ "") : wsOnly d = false := by
  have hne : trimChars d.data ≠ [] := by
    intro hnil
    apply h
    show (⟨trimChars d.data⟩ : String) = ⟨[]⟩
    rw [hnil]
  unfold wsOnly
  by_contra hall
  exact hne ((trimChars_eq_nil_iff d.data).2 (Bool.not_eq_false _ |>.mp hall))

theorem trim_stores_not_wsOnly (d : String) (h : jsTrim d ≠ "") :
    wsOnly (jsTrim d) = false := by
  have hne : trimChars d.data ≠ [] := by
    intro hnil
    apply h
    show (⟨trimChars d.data⟩ : String) = ⟨[]⟩
    rw [hnil]
  show (trimChars d.data).all isJsWhitespace = false
  exact trimChars_not_all_ws d.data hne

end TaskStore

namespace TaskStore

/-! ## Description invariant under validated mutations (C2) -/

theorem descInv_addTask (d : String) (ts : List Task)
    (hd : wsOnly d = false) (h : ∀ t ∈ ts, wsOnly t.description = false) :
    ∀ t ∈ addTask d ts, wsOnly t.description = false := by
  intro t ht
  rcases List.mem_append.1 ht with h1 | h1
  · exact h t h1
  · have : t = { id := nextId ts, description := d, completed := false } :=
      List.mem_singleton.1 h1
    rw [this]
    exact hd

theorem toggle_map_desc (id : Int) : ∀ ts : List Task,
    (toggleTaskCompletion id ts).map Task.description =
      ts.map Task.description := by
  intro ts
  induction ts with
  | nil => rfl
  | cons t ts ih =>
    by_cases h : t.id = id
    · simp [toggleTaskCompletion, h]
    · simp [toggleTaskCompletion, h, ih]

theorem toggleAll_map_desc (f : Bool) (ts : List Task) :
    (toggleAllTasksCompletion f ts).map Task.description =
      ts.map Task.description := by
  simp [toggleAllTasksCompletion, List.map_map]

theorem descInv_of_map_desc_eq {ts ts' : List Task}
    (hmap : ts'.map Task.description = ts.map Task.description)
    (h : ∀ t ∈ ts, wsOnly t.description = false) :
    ∀ t ∈ ts', wsOnly t.description = false := by
  intro t ht
  have hmem : t.description ∈ ts.map Task.description := by
    rw [← hmap]
    exact List.mem_map.2 ⟨t, ht, rfl⟩
  rcases List.mem_map.1 hmem with ⟨u, hu, he⟩
  rw [← he]
  exact h u hu

theorem descInv_updateTaskDescription (id : Int) (d : String)
    (hd : jsTrim d ≠ "") :
    ∀ ts : List Task, (∀ t ∈ ts, wsOnly t.description = false) →
      ∀ t ∈ updateTaskDescription id d ts, wsOnly t.description = false := by
  intro ts
  induction ts with
  | nil => intro _ t ht; simp [updateTaskDescription] at ht
  | cons u ts ih =>
    intro h t ht
    by_cases hu : u.id = id
    · simp only [updateTaskDescription, if_pos hu, List.mem_cons] at ht
      rcases ht with rfl | ht
    
      · exact trim_stores_not_wsOnly d hd
      · exact h t (List.mem_cons_of_mem u ht)
    · simp only [updateTaskDescription, if_neg hu, List.mem_cons] at ht
      rcases ht with rfl | ht
      · exact h t (List.mem_cons_self t ts)
      · exact ih (fun v hv => h v (List.mem_cons_of_mem u hv)) t ht

theorem descInv_applyOp (op : Op) (s : StoreState) (hop : validOp op = true)
    (h : ∀ t ∈ s.tasks, wsOnly t.description = false) :
    ∀ t ∈ (applyOp op s).tasks, wsOnly t.description = false := by
  cases op with
  | add d =>
    have hd : jsTrim d ≠ "" := bne_iff_ne.mp hop
    exact descInv_addTask d s.tasks (wsOnly_of_trim_ne d hd) h
  | remove id => exact fun t ht => h t (List.mem_filter.1 ht).1
  | toggle id => exact descInv_of_map_desc_eq (toggle_map_desc id s.tasks) h
  | update id d =>
    have hd : jsTrim d ≠ "" := bne_iff_ne.mp hop
    exact descInv_updateTaskDescription id d hd s.tasks h
  | toggleAll f => exact descInv_of_map_desc_eq (toggleAll_map_desc f s.tasks) h
  | clearCompleted => exact fun t ht => h t (List.mem_filter.1 ht).1
  | setSearch t => exact h
  | setSort c => exact h

theorem descInv_applyOps : ∀ (ops : List Op) (s : StoreState),
    (∀ op ∈ ops, validOp op = true) →
    (∀ t ∈ s.tasks, wsOnly t.description = false) →
    ∀ t ∈ (applyOps ops s).tasks, wsOnly t.description = false := by
  intro ops
  induction ops with
  | nil => intro s _ h; exact h
  | cons op ops ih =>
    intro s hv h
    have hstep := descInv_applyOp op s (hv op (List.mem_cons_self op ops)) h
    exact ih (applyOp op s) (fun o ho => hv o (List.mem_cons_of_mem op ho)) hstep

end TaskStore

namespace TaskStore

/-! ## Id arithmetic of `addTask` (C3, C4) -/

theorem foldl_max_le_init : ∀ (l : List Task) (a : Int),
    a ≤ l.foldl (fun m u => max m u.id) a := by
  intro l
  induction l with
  | nil => intro a; exact le_refl a
  | cons t l ih =>
    intro a
    exact le_trans (le_max_left a t.id) (ih (max a t.id))

theorem foldl_max_ge_mem : ∀ (l : List Task) (a : Int),
    ∀ t ∈ l, t.id ≤ l.foldl (fun m u => max m u.id) a := by
  intro l
  induction l with
  | nil => intro a t ht; exact absurd ht (List.not_mem_nil t)
  | cons u l ih =>
    intro a t ht
    rcases List.mem_cons.1 ht with rfl | ht
    · exact le_trans (le_max_right a t.id) (foldl_max_le_init l (max a t.id))
    · exact ih (max a u.id) t ht

theorem foldl_max_mem : ∀ (l : List Task) (a : Int),
    l.foldl (fun m u => max m u.id) a = a ∨
      ∃ t ∈ l, l.foldl (fun m u => max m u.id) a = t.id := by
  intro l
  induction l with
  | nil => intro a; exact Or.inl rfl
  | cons u l ih =>
    intro a
    rcases ih (max a u.id) with h | ⟨t, ht, he⟩
    · rcases max_choice a u.id with hm | hm
      · exact Or.inl (by rw [List.foldl_cons, h, hm])
      · exact Or.inr ⟨u, List.mem_cons_self u l, by rw [List.foldl_cons, h, hm]⟩
    · exact Or.inr ⟨t, List.mem_cons_of_mem u ht, by rw [List.foldl_cons, he]⟩

theorem id_lt_nextId (ts : List Task) : ∀ t ∈ ts, t.id < nextId ts := by
  intro t ht
  cases ts with
  | nil => exact absurd ht (List.not_mem_nil t)
  | cons u rest =>
    have hle : t.id ≤ rest.foldl (fun m u => max m u.id) u.id := by
      rcases List.mem_cons.1 ht with rfl | ht2
      · exact foldl_max_le_init rest t.id
      · exact foldl_max_ge_mem rest u.id t ht2
    calc t.id ≤ rest.foldl (fun m u => max m u.id) u.id := hle
      _ < rest.foldl (fun m u => max m u.id) u.id + 1 := lt_add_one _
      _ = nextId (u :: rest) := rfl

theorem nextId_is_max_succ (ts : List Task) (hne : ts ≠ []) :
    ∃ m ∈ ts.map Task.id, (∀ i ∈ ts.map Task.id, i ≤ m) ∧ nextId ts = m + 1 := by
  cases ts with
  | nil => exact absurd rfl hne
  | cons u rest =>
    refine ⟨rest.foldl (fun m v => max m v.id) u.id, ?_, ?_, ?_⟩
    · rcases foldl_max_mem rest u.id with h | ⟨t, ht, he⟩
      · rw [h]
        exact List.mem_map.2 ⟨u, List.mem_cons_self u rest, rfl⟩
      · rw [he]
        exact List.mem_map.2 ⟨t, List.mem_cons_of_mem u ht, rfl⟩
    · intro i hi
      rcases List.mem_map.1 hi with ⟨t, ht, he⟩
      rw [← he]
      rcases List.mem_cons.1 ht with rfl | ht2
      · exact foldl_max_le_init rest t.id
      · exact foldl_max_ge_mem rest u.id t ht2
    · rfl

/-! ## Id preservation of the in-place mutations -/

theorem toggle_map_id (id : Int) : ∀ ts : List Task,
    (toggleTaskCompletion id ts).map Task.id = ts.map Task.id := by
  intro ts
  induction ts with
  | nil => rfl
  | cons t ts ih =>
    by_cases h : t.id = id
    · simp [toggleTaskCompletion, h]
    · simp [toggleTaskCompletion, h, ih]

theorem update_map_id (id : Int) (d : String) : ∀ ts : List Task,
    (updateTaskDescription id d ts).map Task.id = ts.map Task.id := by
  intro ts
  induction ts with
  | nil => rfl
  | cons t ts ih =>
    by_cases h : t.id = id
    · simp [updateTaskDescription, h]
    · simp [updateTaskDescription, h, ih]

theorem toggleAll_map_id (f : Bool) (ts : List Task) :
    (toggleAllTasksCompletion f ts).map Task.id = ts.map Task.id := by
  simp [toggleAllTasksCompletion, List.map_map]

end TaskStore

namespace TaskStore

/-! ## Id uniqueness preservation (C4) -/

theorem nodup_ids_addTask (d : String) (ts : List Task)
    (h : (ts.map Task.id).Nodup) : ((addTask d ts).map Task.id).Nodup := by
  unfold addTask
  rw [List.map_append]
  refine List.Nodup.append h (List.nodup_singleton _) ?_
  intro i hi hj
  rcases List.mem_map.1 hi with ⟨t, ht, he⟩
  have hlt : t.id < nextId ts := id_lt_nextId ts t ht
  have : i = nextId ts := List.mem_singleton.1 hj
  rw [he, this] at hlt
  exact lt_irrefl _ hlt

theorem nodup_ids_applyOp (op : Op) (s : StoreState)
    (h : (s.tasks.map Task.id).Nodup) :
    ((applyOp op s).tasks.map Task.id).Nodup := by
  cases op with
  | add d => exact nodup_ids_addTask d s.tasks h
  | remove id =>
    exact List.Nodup.sublist
      (List.Sublist.map Task.id (List.filter_sublist s.tasks)) h
  | toggle id =>
    show ((toggleTaskCompletion id s.tasks).map Task.id).Nodup
    rw [toggle_map_id]
    exact h
  | update id d =>
    show ((updateTaskDescription id d s.tasks).map Task.id).Nodup
    rw [update_map_id]
    exact h
  | toggleAll f =>
    show ((toggleAllTasksCompletion f s.tasks).map Task.id).Nodup
    rw [toggleAll_map_id]
    exact h
  | clearCompleted =>
    exact List.Nodup.sublist
      (List.Sublist.map Task.id (List.filter_sublist s.tasks)) h
  | setSearch t => exact h
  | setSort c => exact h

theorem nodup_ids_applyOps : ∀ (ops : List Op) (s : StoreState),
    (s.tasks.map Task.id).Nodup → ((applyOps ops s).tasks.map Task.id).Nodup := by
  intro ops
  induction ops with
  | nil => intro s h; exact h
  | cons op ops ih =>
    intro s h
    exact ih (applyOp op s) (nodup_ids_applyOp op s h)

/-! ## Stable sort as a stable partition (C5) -/

theorem sortInsert_pos (cmp : Task → Task → Int) (p : Task → Bool)
    (hcmp : ∀ a b, cmp a b ≤ 0 ↔ (p a = true ∨ p b = false))
    (x : Task) (hx : p x = true) :
    ∀ l : List Task, sortInsert cmp x l = x :: l := by
  intro l
  cases l with
  | nil => rfl
  | cons y ys =>
    unfold sortInsert
    rw [if_pos ((hcmp x y).2 (Or.inl hx))]

theorem sortInsert_neg (cmp : Task → Task → Int) (p : Task → Bool)
    (hcmp : ∀ a b, cmp a b ≤ 0 ↔ (p a = true ∨ p b = false))
    (x : Task) (hx : p x = false) :
    ∀ (C P : List Task), (∀ y ∈ C, p y = true) → (∀ y ∈ P, p y = false) →
      sortInsert cmp x (C ++ P) = C ++ x :: P := by
  intro C
  induction C with
  | nil =>
    intro P _ hP
    cases P with
    | nil => rfl
    | cons q qs =>
      show sortInsert cmp x (q :: qs) = x :: q :: qs
      unfold sortInsert
      rw [if_pos ((hcmp x q).2 (Or.inr (hP q (List.mem_cons_self q qs))))]
  | cons c cs ih =>
    intro P hC hP
    show sortInsert cmp x (c :: (cs ++ P)) = c :: (cs ++ x :: P)
    unfold sortInsert
    have hnle : ¬ cmp x c ≤ 0 := by
      intro hle
      rcases (hcmp x c).1 hle with h1 | h1
      · rw [hx] at h1
        exact Bool.false_ne_true h1
      · rw [hC c (List.mem_cons_self c cs)] at h1
        exact Bool.noConfusion h1
    rw [if_neg hnle, ih P (fun y hy => hC y (List.mem_cons_of_mem c hy)) hP]

theorem jsSort_stable_partition (cmp : Task → Task → Int) (p : Task → Bool)
    (hcmp : ∀ a b, cmp a b ≤ 0 ↔ (p a = true ∨ p b = false)) :
    ∀ l : List Task,
      jsSort cmp l = l.filter p ++ l.filter (fun t => !p t) := by
  intro l
  induction l with
  | nil => rfl
  | cons x xs ih =>
    show sortInsert cmp x (jsSort cmp xs) = _
    rw [ih]
    by_cases hx : p x = true
    · rw [sortInsert_pos cmp p hcmp x hx]
      simp [List.filter_cons, hx]
    · have hx2 : p x = false := Bool.not_eq_true (p x) |>.mp hx
      rw [sortInsert_neg cmp p hcmp x hx2 _ _
        (fun y hy => (List.mem_filter.1 hy).2)
        (fun y hy => by simpa using (List.mem_filter.1 hy).2)]
      simp [List.filter_cons, hx2]

theorem cmpCompletedFirst_le_iff (a b : Task) :
    cmpCompletedFirst a b ≤ 0 ↔ (a.completed = true ∨ b.completed = false) := by
  cases ha : a.completed <;> cases hb : b.completed <;>
    simp [cmpCompletedFirst, ha, hb]

theorem cmpPendingFirst_le_iff (a b : Task) :
    cmpPendingFirst a b ≤ 0 ↔ ((!a.completed) = true ∨ (!b.completed) = false) := by
  cases ha : a.completed <;> cases hb : b.completed <;>
    simp [cmpPendingFirst, ha, hb]

theorem jsSort_completedFirst (l : List Task) :
    jsSort cmpCompletedFirst l =
      l.filter (fun t => t.completed) ++ l.filter (fun t => !t.completed) :=
  jsSort_stable_partition cmpCompletedFirst (fun t => t.completed)
    cmpCompletedFirst_le_iff l

theorem jsSort_pendingFirst (l : List Task) :
    jsSort cmpPendingFirst l =
      l.filter (fun t => !t.completed) ++ l.filter (fun t => t.completed) := by
  have h := jsSort_stable_partition cmpPendingFirst (fun t => !t.completed)
    cmpPendingFirst_le_iff l
  rw [h]
  have hfun : (fun t : Task => !!t.completed) = (fun t : Task => t.completed) := by
    funext t
    exact Bool.not_not t.completed
  rw [hfun]

theorem filtered_eq (s : StoreState) : filteredTasks s = specFilteredTasks s := by
  unfold filteredTasks specFilteredTasks
  by_cases hst : s.searchTerm = ""
  · rw [if_neg (by simpa using hst), if_pos hst]
  · rw [if_pos hst, if_neg hst]

theorem allTasks_eq_spec (s : StoreState) : allTasks s = specAllTasks s := by
  unfold allTasks specAllTasks
  rw [← filtered_eq s]
  by_cases h1 : s.sortCriteria = "completedFirst"
  · rw [if_pos h1, if_pos h1, jsSort_completedFirst]
  · rw [if_neg h1, if_neg h1]
    by_cases h2 : s.sortCriteria = "pendingFirst"
    · rw [if_pos h2, if_pos h2, jsSort_pendingFirst]
    · rw [if_neg h2, if_neg h2]

end TaskStore

namespace TaskStore

/-! ## Toggle involution (C10) -/

theorem toggle_toggle (id : Int) : ∀ ts : List Task,
    toggleTaskCompletion id (toggleTaskCompletion id ts) = ts := by
  intro ts
  induction ts with
  | nil => rfl
  | cons t ts ih =>
    by_cases h : t.id = id
    · simp [toggleTaskCompletion, h]
      rw [← h]
    · simp [toggleTaskCompletion, h, ih]

/-! ## No-op behavior on a missing id (C8) -/

theorem removeTask_noop (id : Int) (ts : List Task)
    (h : ∀ t ∈ ts, t.id ≠ id) : removeTask id ts = ts := by
  apply List.filter_eq_self.2
  intro t ht
  exact bne_iff_ne.2 (h t ht)

theorem toggle_noop (id : Int) : ∀ ts : List Task,
    (∀ t ∈ ts, t.id ≠ id) → toggleTaskCompletion id ts = ts := by
  intro ts
  induction ts with
  | nil => intro _; rfl
  | cons t ts ih =>
    intro h
    have hne : ¬ t.id = id := h t (List.mem_cons_self t ts)
    show (if t.id = id then _ else t :: toggleTaskCompletion id ts) = t :: ts
    rw [if_neg hne, ih (fun u hu => h u (List.mem_cons_of_mem t hu))]

theorem update_noop (id : Int) (d : String) : ∀ ts : List Task,
    (∀ t ∈ ts, t.id ≠ id) → updateTaskDescription id d ts = ts := by
  intro ts
  induction ts with
  | nil => intro _; rfl
  | cons t ts ih =>
    intro h
    have hne : ¬ t.id = id := h t (List.mem_cons_self t ts)
    show (if t.id = id then _ else t :: updateTaskDescription id d ts) = t :: ts
    rw [if_neg hne, ih (fun u hu => h u (List.mem_cons_of_mem t hu))]

theorem find?_id_none (id : Int) (ts : List Task)
    (h : ∀ t ∈ ts, t.id ≠ id) :
    ts.find? (fun task => task.id == id) = none :=
  List.find?_eq_none.2 (fun t ht hbeq => h t ht (beq_iff_eq.1 hbeq))

theorem toggleWrites_false (id : Int) (ts : List Task)
    (h : ∀ t ∈ ts, t.id ≠ id) : toggleTaskCompletionWrites ts id = false := by
  unfold toggleTaskCompletionWrites
  rw [find?_id_none id ts h]
  rfl

theorem updateWrites_false (id : Int) (d : String) (ts : List Task)
    (h : ∀ t ∈ ts, t.id ≠ id) :
    updateTaskDescriptionWrites ts id d = false := by
  unfold updateTaskDescriptionWrites
  rw [find?_id_none id ts h]

/-! ## Serialization round trip (C1, C9) -/

theorem decode_encode_task (t : Task) : decodeTask (encodeTask t) = some t :=
  rfl

theorem decode_encode (ts : List Task) :
    decodeTasks (encodeTasks ts) = some ts := by
  show decodeTaskList (ts.map encodeTask) = some ts
  induction ts with
  | nil => rfl
  | cons t ts ih =>
    show decodeTaskList (encodeTask t :: ts.map encodeTask) = some (t :: ts)
    unfold decodeTaskList
    rw [decode_encode_task t, ih]

end TaskStore

namespace TaskStore

/-! ## Claim theorems -/

/-- C1 (amended): store initialization yields the empty collection on the
falsy slot states — a missing slot and a slot holding the empty string
(the `|| '[]'` fallback fires on both, so the empty string, though
unparseable, is silently recovered) — and a well-formed stored JSON task
array yields exactly that array; but any parseable content is taken
exactly as parsed (wrong-shape values are not replaced by the empty
collection), and non-empty unparseable content makes initialization
propagate the `JSON.parse` error instead of substituting the empty
collection. -/
theorem load_characterization :
    load StoredContent.missing = Except.ok (encodeTasks []) ∧
    load StoredContent.emptyString = Except.ok (encodeTasks []) ∧
    decodeTasks (encodeTasks []) = some ([] : List Task) ∧
    (∀ ts : List Task,
      load (StoredContent.json (encodeTasks ts)) = Except.ok (encodeTasks ts) ∧
      decodeTasks (encodeTasks ts) = some ts) ∧
    (∀ j : Json, load (StoredContent.json j) = Except.ok j) ∧
    load StoredContent.malformed = Except.error () :=
  ⟨rfl, rfl, rfl, fun ts => ⟨rfl, decode_encode ts⟩, fun _ => rfl, rfl⟩

/-- C1 counterexample: on non-empty unparseable storage content (for
example a slot holding the single character `{`, which is truthy, so the
`|| '[]'` fallback does not fire), initializing the store raises (the
`JSON.parse` exception propagates) rather than yielding the empty task
collection. -/
theorem load_malformed_raises :
    load StoredContent.malformed = Except.error () ∧
    load StoredContent.malformed ≠ Except.ok (encodeTasks []) := by
  refine ⟨rfl, ?_⟩
  intro h
  exact Except.noConfusion h

/-- C2 (amended): in every state reachable from the empty store via
mutation operations whose text inputs pass the caller-side validation of
`App.vue` (trimmed text non-empty, as checked by `handleAddTask` and
`saveEdit`), no task description is an empty or whitespace-only string.
With truly arbitrary string inputs the property fails (see the
counterexample): the store itself does not validate. -/
theorem valid_ops_description_invariant :
    ∀ ops : List Op, (∀ op ∈ ops, validOp op = true) →
      ∀ t ∈ (applyOps ops initialStore).tasks, wsOnly t.description = false := by
  intro ops hv
  refine descInv_applyOps ops initialStore hv ?_
  intro t ht
  exact absurd ht (List.not_mem_nil t)

/-- Witness for C2's amended theorem: a concrete validated run. -/
theorem valid_ops_description_invariant_witness :
    (∀ op ∈ [Op.add "buy milk", Op.update 1 "  milk  "], validOp op = true) ∧
    ∀ t ∈ (applyOps [Op.add "buy milk", Op.update 1 "  milk  "]
        initialStore).tasks, wsOnly t.description = false :=
  ⟨by decide, valid_ops_description_invariant _ (by decide)⟩

/-- C2 counterexample: `addTask('')` is a public mutation with an
arbitrary string input, reachable from the empty store, and it produces a
task whose description is the empty string. -/
theorem addTask_empty_description_reachable :
    (applyOps [Op.add ""] initialStore).tasks =
      [{ id := 1, description := "", completed := false }] ∧
    wsOnly "" = true :=
  ⟨rfl, rfl⟩

/-- C3: `addTask` appends exactly one task, with `completed = false`, the
given description, and id `1` on an empty collection or `m + 1` where `m`
is an id present in the collection dominating every id in it — recomputed
from the current collection alone, since `addTask` is a function of the
collection. -/
theorem addTask_appends_fresh_max (ts : List Task) (d : String) :
    ∃ t : Task, addTask d ts = ts ++ [t] ∧ t.completed = false ∧
      t.description = d ∧
      ((ts = [] ∧ t.id = 1) ∨
        (∃ m ∈ ts.map Task.id, (∀ i ∈ ts.map Task.id, i ≤ m) ∧
          t.id = m + 1)) := by
  refine ⟨{ id := nextId ts, description := d, completed := false },
    rfl, rfl, rfl, ?_⟩
  cases ts with
  | nil => exact Or.inl ⟨rfl, rfl⟩
  | cons u rest =>
    rcases nextId_is_max_succ (u :: rest) (by simp) with ⟨m, hm, hle, he⟩
    exact Or.inr ⟨m, hm, hle, he⟩

/-- Witness for C3: a concrete collection in which the previous maximum id
has been removed; the new id still dominates the remaining ids. -/
theorem addTask_appends_fresh_max_witness :
    ∃ t : Task,
      addTask "walk dog" [⟨3, "a", true⟩, ⟨1, "b", false⟩] =
        [⟨3, "a", true⟩, ⟨1, "b", false⟩] ++ [t] ∧
      t.completed = false ∧ t.description = "walk dog" ∧
      (([⟨3, "a", true⟩, ⟨1, "b", false⟩] = ([] : List Task) ∧ t.id = 1) ∨
        (∃ m ∈ ([⟨3, "a", true⟩, ⟨1, "b", false⟩] : List Task).map Task.id,
          (∀ i ∈ ([⟨3, "a", true⟩, ⟨1, "b", false⟩] : List Task).map Task.id,
            i ≤ m) ∧ t.id = m + 1)) :=
  addTask_appends_fresh_max [⟨3, "a", true⟩, ⟨1, "b", false⟩] "walk dog"

/-- C4: starting from a collection whose ids are pairwise distinct, every
single mutation operation and every sequence of mutation operations
(arbitrary interleavings of adds with the other operations) yields a
collection whose ids are again pairwise distinct. -/
theorem mutation_preserves_id_nodup (s : StoreState)
    (h : (s.tasks.map Task.id).Nodup) :
    (∀ op : Op, ((applyOp op s).tasks.map Task.id).Nodup) ∧
    (∀ ops : List Op, ((applyOps ops s).tasks.map Task.id).Nodup) :=
  ⟨fun op => nodup_ids_applyOp op s h, fun ops => nodup_ids_applyOps ops s h⟩

/-- Witness for C4: an interleaved add/remove/add sequence on a concrete
store keeps the ids pairwise distinct. -/
theorem mutation_preserves_id_nodup_witness :
    ((({ tasks := [⟨1, "a", false⟩, ⟨2, "b", true⟩], searchTerm := "",
         sortCriteria := "default" } : StoreState).tasks.map Task.id).Nodup) ∧
    ((applyOps [Op.remove 2, Op.add "c", Op.add "d"]
        { tasks := [⟨1, "a", false⟩, ⟨2, "b", true⟩], searchTerm := "",
          sortCriteria := "default" }).tasks.map Task.id).Nodup :=
  ⟨by decide, (mutation_preserves_id_nodup _ (by decide)).2 _⟩

/-- C5: the `allTasks` view equals the spec's two-stage reference
pipeline: case-insensitive substring filter first, then a stable
completed-first / pending-first partition reorder, identity for `default`
or any unrecognized criterion. -/
theorem allTasks_matches_spec_pipeline (s : StoreState) :
    allTasks s = specAllTasks s :=
  allTasks_eq_spec s

/-- C6: `completedTasks` and `pendingTasks` are exactly the completed and
pending subsequences of the already filtered-and-sorted `allTasks` view
(equal to the reference pipeline's output), not of the raw collection. -/
theorem completed_pending_split (s : StoreState) :
    List.Sublist (completedTasks s) (allTasks s) ∧
    List.Sublist (pendingTasks s) (allTasks s) ∧
    completedTasks s = (specAllTasks s).filter (fun t => t.completed) ∧
    pendingTasks s = (specAllTasks s).filter (fun t => !t.completed) := by
  refine ⟨List.filter_sublist _, List.filter_sublist _, ?_, ?_⟩
  · unfold completedTasks
    rw [allTasks_eq_spec]
  · unfold pendingTasks
    rw [allTasks_eq_spec]

/-- C7: `toggleAllTasksCompletion(flag)` preserves length and, position by
position, id and description, while setting every `completed` to `flag`;
applying it twice with `true` equals applying it once. -/
theorem toggleAll_spec (ts : List Task) (flag : Bool) :
    (toggleAllTasksCompletion flag ts).length = ts.length ∧
    (∀ i : Nat,
      (toggleAllTasksCompletion flag ts)[i]?.map Task.id = ts[i]?.map Task.id ∧
      (toggleAllTasksCompletion flag ts)[i]?.map Task.description =
        ts[i]?.map Task.description ∧
      (toggleAllTasksCompletion flag ts)[i]?.map Task.completed =
        ts[i]?.map (fun _ => flag)) ∧
    toggleAllTasksCompletion true (toggleAllTasksCompletion true ts) =
      toggleAllTasksCompletion true ts := by
  refine ⟨by simp [toggleAllTasksCompletion], ?_, ?_⟩
  · intro i
    unfold toggleAllTasksCompletion
    rw [List.getElem?_map]
    cases ts[i]? <;> simp
  · unfold toggleAllTasksCompletion
    rw [List.map_map]
    have hfun : ((fun task : Task => { task with completed := true }) ∘
        (fun task : Task => { task with completed := true })) =
        (fun task : Task => { task with completed := true }) := by
      funext t
      rfl
    rw [hfun]

/-- C8 (amended): on an id absent from the collection, `removeTask`,
`toggleTaskCompletion` and `updateTaskDescription` all leave the
collection exactly unchanged and raise no error; `removeTask` still
triggers a persistence write (it reassigns the array), but
`toggleTaskCompletion` and `updateTaskDescription` mutate nothing, so the
deep watcher does not fire and no write happens. -/
theorem missing_id_noop (ts : List Task) (id : Int) (d : String)
    (h : ∀ t ∈ ts, t.id ≠ id) :
    removeTask id ts = ts ∧ removeTaskWrites ts id = true ∧
    toggleTaskCompletion id ts = ts ∧
    toggleTaskCompletionWrites ts id = false ∧
    updateTaskDescription id d ts = ts ∧
    updateTaskDescriptionWrites ts id d = false :=
  ⟨removeTask_noop id ts h, rfl, toggle_noop id ts h,
    toggleWrites_false id ts h, update_noop id d ts h,
    updateWrites_false id d ts h⟩

/-- Witness for C8's amended theorem: id 999 on a collection without it. -/
theorem missing_id_noop_witness :
    (∀ t ∈ ([⟨1, "a", false⟩] : List Task), t.id ≠ 999) ∧
    (removeTask 999 [⟨1, "a", false⟩] = [⟨1, "a", false⟩] ∧
      removeTaskWrites [⟨1, "a", false⟩] 999 = true ∧
      toggleTaskCompletion 999 [⟨1, "a", false⟩] = [⟨1, "a", false⟩] ∧
      toggleTaskCompletionWrites [⟨1, "a", false⟩] 999 = false ∧
      updateTaskDescription 999 "x" [⟨1, "a", false⟩] = [⟨1, "a", false⟩] ∧
      updateTaskDescriptionWrites [⟨1, "a", false⟩] 999 "x" = false) :=
  ⟨by decide, missing_id_noop [⟨1, "a", false⟩] 999 "x" (by decide)⟩

/-- C8 counterexample: `toggleTaskCompletion(999)` on a collection without
id 999 leaves the collection unchanged but performs no persistence write
(the watcher never fires), contradicting the claim that every one of the
three operations still triggers a write. -/
theorem toggle_missing_id_no_write :
    toggleTaskCompletion 999
        [({ id := 1, description := "a", completed := false } : Task)] =
      [{ id := 1, description := "a", completed := false }] ∧
    toggleTaskCompletionWrites
        [({ id := 1, description := "a", completed := false } : Task)] 999 =
      false ∧
    updateTaskDescriptionWrites
        [({ id := 1, description := "a", completed := false } : Task)] 999 "x" =
      false := by
  refine ⟨by decide, by decide, by decide⟩

/-- C9: persistence round-trip — saving any task sequence stores the JSON
encoding, loading parses it back successfully, and the parsed value reads
back as exactly the original sequence (same length, order, and fields). -/
theorem save_load_round_trip (ts : List Task) :
    load (save ts) = Except.ok (encodeTasks ts) ∧
    decodeTasks (encodeTasks ts) = some ts :=
  ⟨rfl, decode_encode ts⟩

/-- C10: `toggleTaskCompletion` is an involution on the full store state —
toggling the same id twice (present or not) restores the exact original
state, including `searchTerm` and `sortCriteria`. -/
theorem toggle_involution (s : StoreState) (id : Int) :
    applyOp (Op.toggle id) (applyOp (Op.toggle id) s) = s := by
  show { s with
    tasks := toggleTaskCompletion id (toggleTaskCompletion id s.tasks) } = s
  rw [toggle_toggle]

end TaskStore
